import Mathlib

set_option maxHeartbeats 1000000

/-!
Verification of the concurrent chained hash table implemented three times in
this repository: a per-bucket spinlock variant (src/parallel_spin.c), a
per-bucket read-write-lock variant (src/unnamed/part_000), and a two-level
variant with a per-bucket rwlock plus a per-entry mutex (src/unnamed/part_001).

The table is a fixed array of NUM_BUCKETS (= 5) singly linked chains of
(key, value) entries.  Keys and values in the program are C ints produced by
random() and thread ids, both non-negative, so they are modelled as Nat.
A bucket chain is modelled by the inductive EntryChain, mirroring the C type
bucket_entry: a null pointer, or a node carrying key, val, and a next pointer.
Lock state is synchronization, not logical content, so the pure functions
below model the data effect of each operation; lock acquisitions are modelled
separately as explicit event traces for the lock-discipline properties, and
the two-thread interleaving of the two-level insert is modelled as a small
step system whose atomic steps are its lock-protected regions.
-/

namespace HashTable

/-- NUM_BUCKETS from the source: number of buckets in the hash table. -/
abbrev NUM_BUCKETS : Nat := 5

/-- The C type bucket_entry viewed as a chain: a null pointer, or a node with
key, val and next pointer.  In the two-level variant the node also carries an
entry mutex; the mutex holds no logical data and is modelled only in the
event traces below. -/
inductive EntryChain : Type where
  | null : EntryChain
  | entry (key : Nat) (val : Nat) (next : EntryChain) : EntryChain
deriving DecidableEq, Repr

/-- The global table: one chain head per bucket slot. -/
abbrev Table := Fin NUM_BUCKETS → EntryChain

/-- The table right after main initializes it with memset to all-null heads. -/
def emptyTable : Table := fun _ => .null

/-- The hash: slot i = key % NUM_BUCKETS, as computed at the top of insert and
retrieve in every variant. -/
def bucketIdx (key : Nat) : Fin NUM_BUCKETS :=
  ⟨key % NUM_BUCKETS, Nat.mod_lt key (by decide)⟩

/-- Number of entries in a chain whose key field equals the given key. -/
def countKey (key : Nat) : EntryChain → Nat
  | .null => 0
  | .entry k _ next => (if k = key then 1 else 0) + countKey key next

/-- Value stored by the first entry in the chain with the given key, if any.
This is the value every scan loop in the source observes for that key. -/
def valOf (key : Nat) : EntryChain → Option Nat
  | .null => none
  | .entry k v next => if k = key then some v else valOf key next

/-- Whether some entry in the chain has the given key. -/
def containsKey (key : Nat) : EntryChain → Bool
  | .null => false
  | .entry k _ next => if k = key then true else containsKey key next

/-- The chain as a list of (key, val) pairs in chain order. -/
def entriesOf : EntryChain → List (Nat × Nat)
  | .null => []
  | .entry k v next => (k, v) :: entriesOf next

/-- The scan-and-update loop shared by every insert variant (lines 42-48 of
src/parallel_spin.c and src/unnamed/part_000, lines 43-52 and 59-67 of
src/unnamed/part_001): walk the chain; at the first node whose key matches,
overwrite its val field in place and stop.  Returns none when no node
matches, in which case the chain is untouched. -/
def updateVal (key val : Nat) : EntryChain → Option EntryChain
  | .null => none
  | .entry k v next =>
    if k = key then some (.entry k val next)
    else (updateVal key val next).map (fun c => .entry k v c)

/-- The scan loop of retrieve (lines 70-84 of src/parallel_spin.c): walk the
chain; at the first node whose key matches, build a fresh copy holding that
key and val with its next pointer set to NULL; return the null pointer when
no node matches. -/
def scanCopy (key : Nat) : EntryChain → EntryChain
  | .null => .null
  | .entry k v next =>
    if k = key then .entry k v .null else scanCopy key next

namespace Spin

/-- insert of src/parallel_spin.c lines 36-62: take the bucket spinlock, scan
for the key and update in place if present, otherwise link a new (key, val)
node at the chain head; release the lock.  The spinlock serializes the whole
body, so its data effect is this pure table update. -/
def insert (key val : Nat) (t : Table) : Table :=
  let i := bucketIdx key
  match updateVal key val (t i) with
  | some c => fun j => if j = i then c else t j
  | none => fun j => if j = i then .entry key val (t i) else t j

/-- retrieve of src/parallel_spin.c lines 65-88: take the bucket spinlock,
scan for the key, return a freshly allocated copy (next = NULL) or the null
pointer; release the lock.  The second component is the global table after
the call: retrieve writes no table cell, so it is the input table. -/
def retrieve (key : Nat) (t : Table) : EntryChain × Table :=
  (scanCopy key (t (bucketIdx key)), t)

/-- The put loop applied to a list of (key, val) operations in order. -/
def runInserts (ops : List (Nat × Nat)) (t : Table) : Table :=
  ops.foldl (fun acc p => insert p.1 p.2 acc) t

end Spin

namespace RW

/-- insert of src/unnamed/part_000 lines 36-62: identical chain logic to the
spinlock variant, but the bucket is guarded by a pthread rwlock taken in
write (exclusive) mode for the whole check-then-act sequence. -/
def insert (key val : Nat) (t : Table) : Table :=
  let i := bucketIdx key
  match updateVal key val (t i) with
  | some c => fun j => if j = i then c else t j
  | none => fun j => if j = i then .entry key val (t i) else t j

/-- retrieve of src/unnamed/part_000 lines 65-88: identical chain logic to
the spinlock variant, under the bucket rwlock in read (shared) mode. -/
def retrieve (key : Nat) (t : Table) : EntryChain × Table :=
  (scanCopy key (t (bucketIdx key)), t)

/-- The put loop applied to a list of (key, val) operations in order. -/
def runInserts (ops : List (Nat × Nat)) (t : Table) : Table :=
  ops.foldl (fun acc p => insert p.1 p.2 acc) t

end RW

namespace TwoLevel

/-- insert of src/unnamed/part_001 lines 37-84: double-checked two-level
insert.  Fast path: under the bucket rwlock in shared mode, scan; if the key
is found, update its val under that entry's mutex.  Slow path: release the
shared lock, take the bucket lock exclusively, re-scan (double check); update
if now found, otherwise allocate a node, init its mutex, and link it at the
chain head.  Run sequentially both scans see the same chain, which this pure
function reflects; the interleaved behaviour is modelled by threadStep. -/
def insert (key val : Nat) (t : Table) : Table :=
  let i := bucketIdx key
  match updateVal key val (t i) with
  | some c => fun j => if j = i then c else t j
  | none =>
    match updateVal key val (t i) with
    | some c => fun j => if j = i then c else t j
    | none => fun j => if j = i then .entry key val (t i) else t j

/-- retrieve of src/unnamed/part_001 lines 87-115: under the bucket rwlock in
shared mode, scan; on a match, copy key and val into a fresh node (next =
NULL, fresh mutex) under the entry mutex.  The mutex carries no data, so the
copy is the same scanCopy result; the second component is the table after
the call, which retrieve never writes. -/
def retrieve (key : Nat) (t : Table) : EntryChain × Table :=
  (scanCopy key (t (bucketIdx key)), t)

/-- The put loop applied to a list of (key, val) operations in order. -/
def runInserts (ops : List (Nat × Nat)) (t : Table) : Table :=
  ops.foldl (fun acc p => insert p.1 p.2 acc) t

end TwoLevel

/-- Value of the last insert of the given key in an operation list, if the
key occurs at all. -/
def lastVal (key : Nat) : List (Nat × Nat) → Option Nat
  | [] => none
  | (k, v) :: rest =>
    match lastVal key rest with
    | some w => some w
    | none => if k = key then some v else none

/-- Well-formedness invariant of the table: no bucket chain holds two
entries with the same key. -/
def TableWF (t : Table) : Prop :=
  ∀ (j : Fin NUM_BUCKETS) (k : Nat), countKey k (t j) ≤ 1

/-! ### Lock event traces

Each lock call in the source is one event.  rdLock and wrLock are the
shared and exclusive acquisitions of a bucket lock (the spinlock of the
first variant is exclusive, so its acquisition is wrLock); unlock releases a
bucket lock; lockEntry and unlockEntry are the per-entry mutex calls of the
two-level variant. -/
inductive LockEv : Type where
  | rdLock (i : Fin NUM_BUCKETS)
  | wrLock (i : Fin NUM_BUCKETS)
  | unlock (i : Fin NUM_BUCKETS)
  | lockEntry
  | unlockEntry
deriving DecidableEq, Repr

/-- The two-level scan-and-update loop with its entry-mutex events: on the
matching node, lock that entry's mutex, write val, unlock (lines 43-52 and
59-67 of src/unnamed/part_001). -/
def updateValEv (key val : Nat) : EntryChain → Option EntryChain × List LockEv
  | .null => (none, [])
  | .entry k v next =>
    if k = key then
      (some (.entry k val next), [.lockEntry, .unlockEntry])
    else
      let r := updateValEv key val next
      (r.1.map (fun c => .entry k v c), r.2)

/-- The two-level retrieve scan with its entry-mutex events: on the matching
node, lock its mutex, allocate and fill the copy, unlock (lines 92-111 of
src/unnamed/part_001).  The allocOk flag is the outcome of the malloc at
line 95: when it fails, the code unlocks the entry mutex, and the copy is
never produced (first component none = panic). -/
def scanCopyEv (allocOk : Bool) (key : Nat) :
    EntryChain → Option EntryChain × List LockEv
  | .null => (some .null, [])
  | .entry k v next =>
    if k = key then
      if allocOk then (some (.entry k v .null), [.lockEntry, .unlockEntry])
      else (none, [.lockEntry, .unlockEntry])
    else scanCopyEv allocOk key next

namespace Spin

/-- insert of src/parallel_spin.c with its lock events and the outcome of
the malloc at line 51: lock the bucket (the spinlock is exclusive), scan and
update or link a new node, unlock.  On allocation failure the code unlocks
the bucket spinlock and panics (lines 52-55): first component none. -/
def insertEv (allocOk : Bool) (key val : Nat) (t : Table) :
    Option Table × List LockEv :=
  let i := bucketIdx key
  match updateVal key val (t i) with
  | some c => (some (fun j => if j = i then c else t j), [.wrLock i, .unlock i])
  | none =>
    if allocOk then
      (some (fun j => if j = i then .entry key val (t i) else t j),
        [.wrLock i, .unlock i])
    else (none, [.wrLock i, .unlock i])

/-- retrieve of src/parallel_spin.c with its lock events and the outcome of
the malloc at line 72: lock the bucket, scan; on a match allocate the copy,
unlocking the bucket and panicking if the allocation fails (lines 73-76). -/
def retrieveEv (allocOk : Bool) (key : Nat) (t : Table) :
    Option EntryChain × List LockEv :=
  let i := bucketIdx key
  if containsKey key (t i) then
    if allocOk then (some (scanCopy key (t i)), [.wrLock i, .unlock i])
    else (none, [.wrLock i, .unlock i])
  else (some .null, [.wrLock i, .unlock i])

end Spin

namespace TwoLevel

/-- insert of src/unnamed/part_001 with its lock events and the outcome of
the malloc at line 70: shared-mode scan (entry-mutex events inside), and if
the key was absent, escalate to the exclusive bucket lock and re-scan.  On
allocation failure the code releases the exclusive bucket lock and panics
(lines 71-74): first component none. -/
def insertEv (allocOk : Bool) (key val : Nat) (t : Table) :
    Option Table × List LockEv :=
  let i := bucketIdx key
  match updateValEv key val (t i) with
  | (some c, evs) =>
    (some (fun j => if j = i then c else t j),
      [.rdLock i] ++ evs ++ [.unlock i])
  | (none, evs) =>
    match updateValEv key val (t i) with
    | (some c, evs2) =>
      (some (fun j => if j = i then c else t j),
        [.rdLock i] ++ evs ++ [.unlock i, .wrLock i] ++ evs2 ++ [.unlock i])
    | (none, evs2) =>
      if allocOk then
        (some (fun j => if j = i then .entry key val (t i) else t j),
          [.rdLock i] ++ evs ++ [.unlock i, .wrLock i] ++ evs2 ++ [.unlock i])
      else
        (none,
          [.rdLock i] ++ evs ++ [.unlock i, .wrLock i] ++ evs2 ++ [.unlock i])

/-- retrieve of src/unnamed/part_001 with its lock events: shared-mode
bucket lock around the scan, whose entry-mutex events and allocation outcome
come from scanCopyEv. -/
def retrieveEv (allocOk : Bool) (key : Nat) (t : Table) :
    Option EntryChain × List LockEv :=
  let i := bucketIdx key
  let r := scanCopyEv allocOk key (t i)
  (r.1, [.rdLock i] ++ r.2 ++ [.unlock i])

end TwoLevel

/-- Checks the lock ordering discipline along a trace, tracking how many
bucket locks (nb) and entry locks (ne) the thread holds: a bucket lock is
acquired only with no entry lock held; an entry lock is acquired only with a
bucket lock held and no entry lock held (so entry locks are never nested and
never held two at a time); releases match acquisitions. -/
def disciplineFrom (nb ne : Nat) : List LockEv → Bool
  | [] => true
  | e :: rest =>
    match e with
    | .rdLock _ => decide (ne = 0) && disciplineFrom (nb + 1) ne rest
    | .wrLock _ => decide (ne = 0) && disciplineFrom (nb + 1) ne rest
    | .unlock _ => decide (0 < nb) && disciplineFrom (nb - 1) ne rest
    | .lockEntry =>
      decide (0 < nb) && decide (ne = 0) && disciplineFrom nb (ne + 1) rest
    | .unlockEntry => decide (0 < ne) && disciplineFrom nb (ne - 1) rest

/-- Lock counts held after a trace, starting from (bucket, entry) counts. -/
def heldAfter : List LockEv → Nat × Nat → Nat × Nat
  | [], s => s
  | e :: rest, s =>
    heldAfter rest
      (match e with
       | .rdLock _ => (s.1 + 1, s.2)
       | .wrLock _ => (s.1 + 1, s.2)
       | .unlock _ => (s.1 - 1, s.2)
       | .lockEntry => (s.1, s.2 + 1)
       | .unlockEntry => (s.1, s.2 - 1))

/-! ### Two threads racing the two-level insert on one absent key

The lock-protected regions of the two-level insert are its atomic steps: the
shared-mode scan (with its entry-mutex update when the key is found), and
the exclusive-mode re-scan-and-link.  Structural changes happen only under
the exclusive bucket lock, which excludes both shared scanners and other
exclusive holders, so any concurrent execution of two inserts is an
interleaving of these atomic steps. -/

/-- Program counter of one thread running the two-level insert: before the
shared-mode scan, between releasing the shared lock and the exclusive
re-scan, or finished. -/
inductive PC : Type where
  | start
  | escalate
  | done
deriving DecidableEq, Repr

/-- State of the race: the contended bucket chain and both program
counters. -/
structure CState : Type where
  chain : EntryChain
  pc1 : PC
  pc2 : PC
deriving DecidableEq, Repr

/-- One atomic step of a thread running TwoLevel.insert key val on the
contended chain: from start, the shared-mode scan either updates in place
(fast path, done) or finds nothing and escalates; from escalate, the
exclusive re-scan either updates in place or links a new head node. -/
def threadStep (key val : Nat) : PC → EntryChain → PC × EntryChain
  | .start, ch =>
    match updateVal key val ch with
    | some c => (.done, c)
    | none => (.escalate, ch)
  | .escalate, ch =>
    match updateVal key val ch with
    | some c => (.done, c)
    | none => (.done, .entry key val ch)
  | .done, ch => (.done, ch)

/-- Scheduler step: false runs thread 1 (inserting v1), true runs thread 2
(inserting v2). -/
def sysStep (key v1 v2 : Nat) (s : CState) : Bool → CState
  | false =>
    let r := threadStep key v1 s.pc1 s.chain
    { chain := r.2, pc1 := r.1, pc2 := s.pc2 }
  | true =>
    let r := threadStep key v2 s.pc2 s.chain
    { chain := r.2, pc1 := s.pc1, pc2 := r.1 }

/-- Runs a schedule (a list of scheduler choices) from a state. -/
def runSched (key v1 v2 : Nat) (s : CState) : List Bool → CState
  | [] => s
  | b :: rest => runSched key v1 v2 (sysStep key v1 v2 s b) rest

/-- Invariant of the race: the contended key never has two entries, any
value it carries came from one of the two inserts, and a finished thread has
ensured the key is present. -/
def RaceInv (key v1 v2 : Nat) (s : CState) : Prop :=
  countKey key s.chain ≤ 1 ∧
  (∀ w, valOf key s.chain = some w → w = v1 ∨ w = v2) ∧
  (s.pc1 = .done → containsKey key s.chain = true) ∧
  (s.pc2 = .done → containsKey key s.chain = true)

/-! ### Process entry point argument checking -/

/-- Whitespace recognition of C isspace, as consumed by atoi. -/
def isSpaceChar (c : Char) : Bool :=
  c = ' ' || c = '\t' || c = '\n' || c = '\x0b' || c = '\x0c' || c = '\r'

/-- Value of the leading digit run; stops at the first non-digit. -/
def digitsVal : List Char → Nat → Nat
  | [], acc => acc
  | c :: cs, acc =>
    if c.isDigit then digitsVal cs (acc * 10 + (c.toNat - 48)) else acc

/-- C atoi as called at line 127 of src/parallel_spin.c: skip leading
whitespace, an optional sign, then the value of the leading digit run; a
string with no leading digits yields 0. -/
def atoi (s : String) : Int :=
  match s.toList.dropWhile isSpaceChar with
  | [] => 0
  | c :: rest =>
    if c = '-' then -(digitsVal rest 0 : Int)
    else if c = '+' then (digitsVal rest 0 : Int)
    else (digitsVal (c :: rest) 0 : Int)

/-- The argument checks at the top of main (lines 124-129 of
src/parallel_spin.c, identically lines 152-157 of src/unnamed/part_001),
run before any table state is initialized: with argc different from 2, or
atoi of argv[1] non-positive, panic prints a message and exits with status
1; otherwise main proceeds with the parsed thread count.  The argv list
includes the program name, so its length is argc. -/
def mainGuard (argv : List String) : Except (Int × String) Int :=
  if argv.length ≠ 2 then
    .error (1, "usage: ./parallel_spin <num_threads>")
  else
    let n := atoi (argv.getD 1 "")
    if n ≤ 0 then .error (1, "must enter a valid number of threads to run")
    else .ok n

/-! ### Chain-level lemmas -/

theorem updateVal_eq_none_iff (key val : Nat) (ch : EntryChain) :
    updateVal key val ch = none ↔ containsKey key ch = false := by
  induction ch with
  | null => simp [updateVal, containsKey]
  | entry k v next ih =>
    by_cases hk : k = key
    · simp [updateVal, containsKey, hk]
    · simp [updateVal, containsKey, hk, Option.map_eq_none', ih]

theorem updateVal_some_of_contains (key val : Nat) {ch : EntryChain}
    (h : containsKey key ch = true) : ∃ c, updateVal key val ch = some c := by
  cases hu : updateVal key val ch with
  | none =>
    rw [updateVal_eq_none_iff] at hu
    rw [h] at hu
    simp at hu
  | some c => exact ⟨c, rfl⟩

theorem contains_of_updateVal_some (key val : Nat) {ch c : EntryChain}
    (h : updateVal key val ch = some c) : containsKey key ch = true := by
  cases hc : containsKey key ch with
  | false =>
    rw [← updateVal_eq_none_iff key val] at hc
    rw [h] at hc
    simp at hc
  | true => rfl

theorem valOf_updateVal_self (key val : Nat) :
    ∀ {ch c : EntryChain}, updateVal key val ch = some c →
      valOf key c = some val := by
  intro ch
  induction ch with
  | null => intro c h; simp [updateVal] at h
  | entry k v next ih =>
    intro c h
    by_cases hk : k = key
    · simp only [updateVal, if_pos hk] at h
      rw [Option.some_inj] at h
      subst h
      simp [valOf, hk]
    · simp only [updateVal, if_neg hk, Option.map_eq_some'] at h
      obtain ⟨c0, h0, rfl⟩ := h
      simp only [valOf, if_neg hk]
      exact ih h0

theorem valOf_updateVal_ne (key val k2 : Nat) (hne : k2 ≠ key) :
    ∀ {ch c : EntryChain}, updateVal key val ch = some c →
      valOf k2 c = valOf k2 ch := by
  intro ch
  induction ch with
  | null => intro c h; simp [updateVal] at h
  | entry k v next ih =>
    intro c h
    by_cases hk : k = key
    · simp only [updateVal, if_pos hk] at h
      rw [Option.some_inj] at h
      subst h
      have hk2 : k ≠ k2 := by rw [hk]; exact Ne.symm hne
      simp [valOf, hk2]
    · simp only [updateVal, if_neg hk, Option.map_eq_some'] at h
      obtain ⟨c0, h0, rfl⟩ := h
      simp only [valOf]
      rw [ih h0]

theorem countKey_updateVal (key val k2 : Nat) :
    ∀ {ch c : EntryChain}, updateVal key val ch = some c →
      countKey k2 c = countKey k2 ch := by
  intro ch
  induction ch with
  | null => intro c h; simp [updateVal] at h
  | entry k v next ih =>
    intro c h
    by_cases hk : k = key
    · simp only [updateVal, if_pos hk] at h
      rw [Option.some_inj] at h
      subst h
      simp [countKey]
    · simp only [updateVal, if_neg hk, Option.map_eq_some'] at h
      obtain ⟨c0, h0, rfl⟩ := h
      simp only [countKey]
      rw [ih h0]

theorem containsKey_updateVal (key val k2 : Nat) :
    ∀ {ch c : EntryChain}, updateVal key val ch = some c →
      containsKey k2 c = containsKey k2 ch := by
  intro ch
  induction ch with
  | null => intro c h; simp [updateVal] at h
  | entry k v next ih =>
    intro c h
    by_cases hk : k = key
    · simp only [updateVal, if_pos hk] at h
      rw [Option.some_inj] at h
      subst h
      simp [containsKey]
    · simp only [updateVal, if_neg hk, Option.map_eq_some'] at h
      obtain ⟨c0, h0, rfl⟩ := h
      simp only [containsKey]
      rw [ih h0]

theorem updateVal_decomp (key val : Nat) :
    ∀ {ch c : EntryChain}, updateVal key val ch = some c →
      ∃ p w q, entriesOf ch = p ++ (key, w) :: q ∧ (∀ e ∈ p, e.1 ≠ key) ∧
        entriesOf c = p ++ (key, val) :: q := by
  intro ch
  induction ch with
  | null => intro c h; simp [updateVal] at h
  | entry k v next ih =>
    intro c h
    by_cases hk : k = key
    · simp only [updateVal, if_pos hk] at h
      rw [Option.some_inj] at h
      subst h
      exact ⟨[], v, entriesOf next, by simp [entriesOf, hk], by simp,
        by simp [entriesOf, hk]⟩
    · simp only [updateVal, if_neg hk, Option.map_eq_some'] at h
      obtain ⟨c0, h0, rfl⟩ := h
      obtain ⟨p, w, q, hp1, hp2, hp3⟩ := ih h0
      refine ⟨(k, v) :: p, w, q, by simp [entriesOf, hp1], ?_,
        by simp [entriesOf, hp3]⟩
      intro e he
      rcases List.mem_cons.mp he with rfl | hem
      · exact hk
      · exact hp2 e hem

theorem scanCopy_eq (key : Nat) (ch : EntryChain) :
    scanCopy key ch =
      match valOf key ch with
      | some v => .entry key v .null
      | none => .null := by
  induction ch with
  | null => simp [scanCopy, valOf]
  | entry k v next ih =>
    by_cases hk : k = key
    · simp [scanCopy, valOf, hk]
    · simp [scanCopy, valOf, hk, ih]

theorem countKey_eq_zero_iff (key : Nat) (ch : EntryChain) :
    countKey key ch = 0 ↔ containsKey key ch = false := by
  induction ch with
  | null => simp [countKey, containsKey]
  | entry k v next ih =>
    by_cases hk : k = key
    · simp [countKey, containsKey, hk]
    · simp [countKey, containsKey, hk, ih]

theorem one_le_countKey_of_contains (key : Nat) {ch : EntryChain}
    (h : containsKey key ch = true) : 1 ≤ countKey key ch := by
  cases hn : countKey key ch with
  | zero =>
    rw [countKey_eq_zero_iff] at hn
    rw [h] at hn
    simp at hn
  | succ n => omega

theorem valOf_eq_none_iff (key : Nat) (ch : EntryChain) :
    valOf key ch = none ↔ containsKey key ch = false := by
  induction ch with
  | null => simp [valOf, containsKey]
  | entry k v next ih =>
    by_cases hk : k = key
    · simp [valOf, containsKey, hk]
    · simp [valOf, containsKey, hk, ih]

theorem exists_valOf_of_contains (key : Nat) {ch : EntryChain}
    (h : containsKey key ch = true) : ∃ v, valOf key ch = some v := by
  cases hv : valOf key ch with
  | none =>
    rw [valOf_eq_none_iff] at hv
    rw [h] at hv
    simp at hv
  | some v => exact ⟨v, rfl⟩

theorem contains_of_valOf_some (key : Nat) {ch : EntryChain} {v : Nat}
    (h : valOf key ch = some v) : containsKey key ch = true := by
  cases hc : containsKey key ch with
  | false =>
    rw [← valOf_eq_none_iff key] at hc
    rw [h] at hc
    simp at hc
  | true => rfl

/-! ### Insert-level lemmas -/

theorem spin_insert_apply_ne (key val : Nat) (t : Table) {j : Fin NUM_BUCKETS}
    (hj : j ≠ bucketIdx key) : Spin.insert key val t j = t j := by
  simp only [Spin.insert]
  cases h : updateVal key val (t (bucketIdx key)) <;> simp [h, hj]

theorem spin_insert_apply_self (key val : Nat) (t : Table) :
    Spin.insert key val t (bucketIdx key) =
      match updateVal key val (t (bucketIdx key)) with
      | some c => c
      | none => .entry key val (t (bucketIdx key)) := by
  simp only [Spin.insert]
  cases h : updateVal key val (t (bucketIdx key)) <;> simp [h]

theorem contains_insert_self (key val : Nat) (t : Table) :
    containsKey key (Spin.insert key val t (bucketIdx key)) = true := by
  rw [spin_insert_apply_self]
  cases h : updateVal key val (t (bucketIdx key)) with
  | some c =>
    rw [containsKey_updateVal key val key h]
    exact contains_of_updateVal_some key val h
  | none => simp [containsKey]

theorem valOf_insert_self (key val : Nat) (t : Table) :
    valOf key (Spin.insert key val t (bucketIdx key)) = some val := by
  rw [spin_insert_apply_self]
  cases h : updateVal key val (t (bucketIdx key)) with
  | some c => exact valOf_updateVal_self key val h
  | none => simp [valOf]

theorem valOf_insert_ne (key val k2 : Nat) (hne : k2 ≠ key) (t : Table)
    (j : Fin NUM_BUCKETS) :
    valOf k2 (Spin.insert key val t j) = valOf k2 (t j) := by
  by_cases hj : j = bucketIdx key
  · subst hj
    rw [spin_insert_apply_self]
    cases h : updateVal key val (t (bucketIdx key)) with
    | some c => exact valOf_updateVal_ne key val k2 hne h
    | none => simp [valOf, Ne.symm hne]
  · rw [spin_insert_apply_ne key val t hj]

theorem contains_insert_mono (key val k2 : Nat) (t : Table)
    (j : Fin NUM_BUCKETS) (h : containsKey k2 (t j) = true) :
    containsKey k2 (Spin.insert key val t j) = true := by
  by_cases hj : j = bucketIdx key
  · subst hj
    rw [spin_insert_apply_self]
    cases hu : updateVal key val (t (bucketIdx key)) with
    | some c => rw [containsKey_updateVal key val k2 hu]; exact h
    | none =>
      simp only [containsKey]
      by_cases hk : key = k2 <;> simp [hk, h]
  · rw [spin_insert_apply_ne key val t hj]; exact h

theorem tableWF_insert (key val : Nat) {t : Table} (h : TableWF t) :
    TableWF (Spin.insert key val t) := by
  intro j k2
  by_cases hj : j = bucketIdx key
  · subst hj
    rw [spin_insert_apply_self]
    cases hu : updateVal key val (t (bucketIdx key)) with
    | some c => rw [countKey_updateVal key val k2 hu]; exact h _ k2
    | none =>
      have hc0 : countKey key (t (bucketIdx key)) = 0 :=
        (countKey_eq_zero_iff key _).mpr ((updateVal_eq_none_iff key val _).mp hu)
      simp only [countKey]
      by_cases hk : key = k2
      · subst hk
        simp [hc0]
      · have := h (bucketIdx key) k2
        simp [hk]
        omega
  · rw [spin_insert_apply_ne key val t hj]; exact h j k2

theorem tableWF_empty : TableWF emptyTable := by
  intro j k
  simp [emptyTable, countKey]

theorem spin_runInserts_nil (t : Table) : Spin.runInserts [] t = t := rfl

theorem spin_runInserts_cons (p : Nat × Nat) (ops : List (Nat × Nat))
    (t : Table) :
    Spin.runInserts (p :: ops) t = Spin.runInserts ops (Spin.insert p.1 p.2 t) :=
  rfl

theorem tableWF_runInserts (ops : List (Nat × Nat)) {t : Table}
    (h : TableWF t) : TableWF (Spin.runInserts ops t) := by
  induction ops generalizing t with
  | nil => exact h
  | cons p rest ih => exact ih (tableWF_insert p.1 p.2 h)

theorem contains_runInserts_mono (ops : List (Nat × Nat)) (k2 : Nat)
    {t : Table} {j : Fin NUM_BUCKETS} (h : containsKey k2 (t j) = true) :
    containsKey k2 (Spin.runInserts ops t j) = true := by
  induction ops generalizing t with
  | nil => exact h
  | cons p rest ih =>
    rw [spin_runInserts_cons]
    exact ih (contains_insert_mono p.1 p.2 k2 t j h)

theorem contains_runInserts_of_mem (ops : List (Nat × Nat)) (key : Nat)
    (hk : key ∈ ops.map Prod.fst) (t : Table) :
    containsKey key (Spin.runInserts ops t (bucketIdx key)) = true := by
  induction ops generalizing t with
  | nil => simp at hk
  | cons p rest ih =>
    rw [spin_runInserts_cons]
    by_cases hp : p.1 = key
    · apply contains_runInserts_mono
      rw [← hp]
      exact contains_insert_self p.1 p.2 t
    · have hmem : key ∈ rest.map Prod.fst := by
        simp only [List.map_cons, List.mem_cons] at hk
        rcases hk with h1 | h2
        · exact absurd h1.symm hp
        · exact h2
      exact ih hmem _

theorem valOf_runInserts (ops : List (Nat × Nat)) (key : Nat) (t : Table) :
    valOf key (Spin.runInserts ops t (bucketIdx key)) =
      match lastVal key ops with
      | some w => some w
      | none => valOf key (t (bucketIdx key)) := by
  induction ops generalizing t with
  | nil => rfl
  | cons p rest ih =>
    obtain ⟨k, v⟩ := p
    rw [spin_runInserts_cons]
    by_cases hk : k = key
    · subst hk
      rw [ih]
      have hself := valOf_insert_self k v t
      cases hl : lastVal k rest with
      | some w => simp [lastVal, hl]
      | none => simp [lastVal, hl, hself]
    · rw [ih]
      have hne : valOf key (Spin.insert k v t (bucketIdx key)) =
          valOf key (t (bucketIdx key)) :=
        valOf_insert_ne k v key (Ne.symm hk) t (bucketIdx key)
      cases hl : lastVal key rest with
      | some w => simp [lastVal, hl]
      | none => simp [lastVal, hl, hk, hne]

/-! ### Variant agreement lemmas -/

theorem rw_insert_eq_spin : RW.insert = Spin.insert := rfl

theorem rw_retrieve_eq_spin : RW.retrieve = Spin.retrieve := rfl

theorem rw_runInserts_eq_spin : RW.runInserts = Spin.runInserts := rfl

theorem twoLevel_insert_eq_spin (key val : Nat) (t : Table) :
    TwoLevel.insert key val t = Spin.insert key val t := by
  simp only [TwoLevel.insert, Spin.insert]
  cases h : updateVal key val (t (bucketIdx key)) <;> simp [h]

theorem twoLevel_retrieve_eq_spin : TwoLevel.retrieve = Spin.retrieve := rfl

theorem twoLevel_runInserts_cons (p : Nat × Nat) (ops : List (Nat × Nat))
    (t : Table) :
    TwoLevel.runInserts (p :: ops) t =
      TwoLevel.runInserts ops (TwoLevel.insert p.1 p.2 t) :=
  rfl

theorem twoLevel_runInserts_eq_spin (ops : List (Nat × Nat)) (t : Table) :
    TwoLevel.runInserts ops t = Spin.runInserts ops t := by
  induction ops generalizing t with
  | nil => rfl
  | cons p rest ih =>
    rw [twoLevel_runInserts_cons, spin_runInserts_cons,
      twoLevel_insert_eq_spin]
    exact ih _

/-! ### Claim theorems -/

/-- C1: for every table state, key and value, insert is an idempotent
upsert.  When an entry with the key exists in the bucket at slot
key mod NUM_BUCKETS, insert rewrites exactly that first matching entry's
value field to the new value, leaving the chain spine, the other entries
and their order untouched; otherwise it links a new (key, val) entry at
the head of that chain.  Insert is total (never an error for a duplicate
key), and the read-write-lock and two-level variants perform the same
update as the spinlock variant. -/
theorem claim_C1_insert_upsert (t : Table) (key val : Nat) :
    (containsKey key (t (bucketIdx key)) = true →
      ∃ p w q,
        entriesOf (t (bucketIdx key)) = p ++ (key, w) :: q ∧
        (∀ e ∈ p, e.1 ≠ key) ∧
        entriesOf (Spin.insert key val t (bucketIdx key)) =
          p ++ (key, val) :: q) ∧
    (containsKey key (t (bucketIdx key)) = false →
      Spin.insert key val t (bucketIdx key) =
        .entry key val (t (bucketIdx key))) ∧
    RW.insert key val t = Spin.insert key val t ∧
    TwoLevel.insert key val t = Spin.insert key val t := by
  refine ⟨?_, ?_, rfl, twoLevel_insert_eq_spin key val t⟩
  · intro hc
    obtain ⟨c, hu⟩ := updateVal_some_of_contains key val hc
    have hins : Spin.insert key val t (bucketIdx key) = c := by
      rw [spin_insert_apply_self, hu]
    obtain ⟨p, w, q, h1, h2, h3⟩ := updateVal_decomp key val hu
    exact ⟨p, w, q, h1, h2, by rw [hins]; exact h3⟩
  · intro hc
    have hu : updateVal key val (t (bucketIdx key)) = none :=
      (updateVal_eq_none_iff key val _).mpr hc
    rw [spin_insert_apply_self, hu]

/-- Witness for C1: updating the present key 3 rewrites its value in
place, and inserting the absent key 2 links a new head entry. -/
theorem claim_C1_insert_upsert_witness :
    (∃ p w q,
      entriesOf (Spin.insert 3 5 emptyTable (bucketIdx 3)) =
        p ++ (3, w) :: q ∧
      (∀ e ∈ p, e.1 ≠ 3) ∧
      entriesOf (Spin.insert 3 7 (Spin.insert 3 5 emptyTable) (bucketIdx 3)) =
        p ++ (3, 7) :: q) ∧
    Spin.insert 2 9 emptyTable (bucketIdx 2) =
      .entry 2 9 (emptyTable (bucketIdx 2)) := by
  constructor
  · exact (claim_C1_insert_upsert (Spin.insert 3 5 emptyTable) 3 7).1
      (by decide)
  · exact (claim_C1_insert_upsert emptyTable 2 9).2.1 (by decide)

/-- C2: lookup returns the null pointer exactly when no entry with the key
exists in the bucket at slot key mod NUM_BUCKETS; when it returns an entry,
that entry is a copy carrying the looked-up key and the stored value with
its next pointer set to null, so it has no link into the chain; the table
state after the call is unchanged, and all three variants return the same
copy. -/
theorem claim_C2_lookup_copy (t : Table) (key : Nat) :
    ((Spin.retrieve key t).1 = .null ↔
      containsKey key (t (bucketIdx key)) = false) ∧
    (∀ k0 v0 nx, (Spin.retrieve key t).1 = .entry k0 v0 nx →
      k0 = key ∧ valOf key (t (bucketIdx key)) = some v0 ∧ nx = .null) ∧
    (Spin.retrieve key t).2 = t ∧
    RW.retrieve key t = Spin.retrieve key t ∧
    TwoLevel.retrieve key t = Spin.retrieve key t := by
  have hr : (Spin.retrieve key t).1 = scanCopy key (t (bucketIdx key)) := rfl
  refine ⟨?_, ?_, rfl, rfl, rfl⟩
  · rw [hr, scanCopy_eq]
    cases hv : valOf key (t (bucketIdx key)) with
    | none =>
      constructor
      · intro _
        exact (valOf_eq_none_iff key _).mp hv
      · intro _; rfl
    | some v =>
      have hc := contains_of_valOf_some key hv
      simp [hc]
  · intro k0 v0 nx h
    rw [hr, scanCopy_eq] at h
    cases hv : valOf key (t (bucketIdx key)) with
    | none =>
      rw [hv] at h
      exact absurd h (by simp)
    | some v =>
      rw [hv] at h
      injection h with h1 h2 h3
      exact ⟨h1.symm, by rw [h2], h3.symm⟩

/-- Witness for C2: looking up key 3 after inserting (3, 5) returns the
copy (3, 5, null). -/
theorem claim_C2_lookup_copy_witness :
    3 = 3 ∧
      valOf 3 (Spin.insert 3 5 emptyTable (bucketIdx 3)) = some 5 ∧
      EntryChain.null = EntryChain.null :=
  (claim_C2_lookup_copy (Spin.insert 3 5 emptyTable) 3).2.1 3 5 .null
    (by decide)

/-- C6: the bucket slot used by insert and lookup is key mod NUM_BUCKETS
with NUM_BUCKETS = 5, a valid index below NUM_BUCKETS; insert in every
variant touches no other slot, and lookup in every variant depends only on
that slot, so a key always maps to the same slot. -/
theorem claim_C6_hash_slot (key val : Nat) (t : Table) :
    (bucketIdx key).val = key % NUM_BUCKETS ∧
    NUM_BUCKETS = 5 ∧
    (bucketIdx key).val < NUM_BUCKETS ∧
    (∀ j, j ≠ bucketIdx key →
      Spin.insert key val t j = t j ∧ RW.insert key val t j = t j ∧
        TwoLevel.insert key val t j = t j) ∧
    (∀ t2 : Table, t2 (bucketIdx key) = t (bucketIdx key) →
      (Spin.retrieve key t2).1 = (Spin.retrieve key t).1 ∧
      (RW.retrieve key t2).1 = (RW.retrieve key t).1 ∧
      (TwoLevel.retrieve key t2).1 = (TwoLevel.retrieve key t).1) := by
  refine ⟨rfl, rfl, (bucketIdx key).isLt, ?_, ?_⟩
  · intro j hj
    refine ⟨spin_insert_apply_ne key val t hj, ?_, ?_⟩
    · rw [rw_insert_eq_spin]
      exact spin_insert_apply_ne key val t hj
    · rw [twoLevel_insert_eq_spin]
      exact spin_insert_apply_ne key val t hj
  · intro t2 h2
    have hs : (Spin.retrieve key t2).1 = (Spin.retrieve key t).1 := by
      show scanCopy key (t2 (bucketIdx key)) = scanCopy key (t (bucketIdx key))
      rw [h2]
    refine ⟨hs, ?_, ?_⟩
    · rw [rw_retrieve_eq_spin]
      exact hs
    · rw [twoLevel_retrieve_eq_spin]
      exact hs

/-- Witness for C6: key 7 hashes to slot 2, so inserting it leaves slot 0
unchanged in every variant. -/
theorem claim_C6_hash_slot_witness :
    (Spin.insert 7 1 emptyTable ⟨0, by decide⟩ = emptyTable ⟨0, by decide⟩ ∧
      RW.insert 7 1 emptyTable ⟨0, by decide⟩ = emptyTable ⟨0, by decide⟩ ∧
      TwoLevel.insert 7 1 emptyTable ⟨0, by decide⟩ =
        emptyTable ⟨0, by decide⟩) ∧
    (Spin.retrieve 7 emptyTable).1 = (Spin.retrieve 7 emptyTable).1 := by
  constructor
  · exact (claim_C6_hash_slot 7 1 emptyTable).2.2.2.1 ⟨0, by decide⟩
      (by decide)
  · exact ((claim_C6_hash_slot 7 1 emptyTable).2.2.2.2 emptyTable rfl).1

/-- C10: insert leaves every bucket other than the target slot unchanged in
all three variants; when the key is already present, only that entry's
value field changes — the chain decomposition shows the entries before and
after it, their keys, values, order and links are identical; and lookup
leaves the whole table unchanged in all three variants. -/
theorem claim_C10_insert_frame (t : Table) (key val : Nat) :
    (∀ j, j ≠ bucketIdx key →
      Spin.insert key val t j = t j ∧ RW.insert key val t j = t j ∧
        TwoLevel.insert key val t j = t j) ∧
    (containsKey key (t (bucketIdx key)) = true →
      ∃ p w q,
        entriesOf (t (bucketIdx key)) = p ++ (key, w) :: q ∧
        (∀ e ∈ p, e.1 ≠ key) ∧
        entriesOf (Spin.insert key val t (bucketIdx key)) =
          p ++ (key, val) :: q ∧
        entriesOf (RW.insert key val t (bucketIdx key)) =
          p ++ (key, val) :: q ∧
        entriesOf (TwoLevel.insert key val t (bucketIdx key)) =
          p ++ (key, val) :: q) ∧
    (Spin.retrieve key t).2 = t ∧ (RW.retrieve key t).2 = t ∧
      (TwoLevel.retrieve key t).2 = t := by
  refine ⟨?_, ?_, rfl, rfl, rfl⟩
  · intro j hj
    refine ⟨spin_insert_apply_ne key val t hj, ?_, ?_⟩
    · rw [rw_insert_eq_spin]
      exact spin_insert_apply_ne key val t hj
    · rw [twoLevel_insert_eq_spin]
      exact spin_insert_apply_ne key val t hj
  · intro hc
    obtain ⟨c, hu⟩ := updateVal_some_of_contains key val hc
    obtain ⟨p, w, q, h1, h2, h3⟩ := updateVal_decomp key val hu
    have hins : Spin.insert key val t (bucketIdx key) = c := by
      rw [spin_insert_apply_self, hu]
    refine ⟨p, w, q, h1, h2, by rw [hins]; exact h3, ?_, ?_⟩
    · rw [rw_insert_eq_spin, hins]
      exact h3
    · rw [twoLevel_insert_eq_spin, hins]
      exact h3

/-- Witness for C10: re-inserting key 3 with a new value changes only its
value field, and slot 0 stays untouched. -/
theorem claim_C10_insert_frame_witness :
    (Spin.insert 3 7 (Spin.insert 3 5 emptyTable) ⟨0, by decide⟩ =
      Spin.insert 3 5 emptyTable ⟨0, by decide⟩) ∧
    (∃ p w q,
      entriesOf (Spin.insert 3 5 emptyTable (bucketIdx 3)) =
        p ++ (3, w) :: q ∧
      (∀ e ∈ p, e.1 ≠ 3) ∧
      entriesOf (Spin.insert 3 7 (Spin.insert 3 5 emptyTable) (bucketIdx 3)) =
        p ++ (3, 7) :: q ∧
      entriesOf (RW.insert 3 7 (Spin.insert 3 5 emptyTable) (bucketIdx 3)) =
        p ++ (3, 7) :: q ∧
      entriesOf
          (TwoLevel.insert 3 7 (Spin.insert 3 5 emptyTable) (bucketIdx 3)) =
        p ++ (3, 7) :: q) := by
  have h := claim_C10_insert_frame (Spin.insert 3 5 emptyTable) 3 7
  exact ⟨(h.1 ⟨0, by decide⟩ (by decide)).1, h.2.1 (by decide)⟩

/-- C3: starting from the empty table, after any finite sequence of inserts
every inserted key has exactly one entry in the chain of the bucket it
hashes to, that entry's value is the value of the last insert of the key,
a subsequent lookup of the key succeeds (no lost keys), and at no point
during the sequence does any bucket chain hold two entries with the same
key. -/
theorem claim_C3_last_writer_wins (ops : List (Nat × Nat)) (key : Nat)
    (hk : key ∈ ops.map Prod.fst) :
    countKey key (Spin.runInserts ops emptyTable (bucketIdx key)) = 1 ∧
    valOf key (Spin.runInserts ops emptyTable (bucketIdx key)) =
      lastVal key ops ∧
    (Spin.retrieve key (Spin.runInserts ops emptyTable)).1 ≠ .null ∧
    (∀ n (j : Fin NUM_BUCKETS) (k2 : Nat),
      countKey k2 (Spin.runInserts (ops.take n) emptyTable j) ≤ 1) := by
  have hwf := tableWF_runInserts ops tableWF_empty
  have hc := contains_runInserts_of_mem ops key hk emptyTable
  refine ⟨?_, ?_, ?_, ?_⟩
  · have h1 := one_le_countKey_of_contains key hc
    have h2 := hwf (bucketIdx key) key
    omega
  · rw [valOf_runInserts]
    cases hl : lastVal key ops with
    | some w => rfl
    | none => simp [emptyTable, valOf]
  · have hr : (Spin.retrieve key (Spin.runInserts ops emptyTable)).1 =
        scanCopy key (Spin.runInserts ops emptyTable (bucketIdx key)) := rfl
    rw [hr, scanCopy_eq]
    obtain ⟨v, hv⟩ := exists_valOf_of_contains key hc
    rw [hv]
    simp
  · intro n j k2
    exact tableWF_runInserts (ops.take n) tableWF_empty j k2

/-- Witness for C3: the sequence (3, 5), (3, 7), (8, 1) leaves one entry for
key 3 with the value 7 of its last insert, and keys 3 and 8 share bucket 3
without duplicates. -/
theorem claim_C3_last_writer_wins_witness :
    countKey 3
        (Spin.runInserts [(3, 5), (3, 7), (8, 1)] emptyTable (bucketIdx 3)) =
      1 ∧
    valOf 3
        (Spin.runInserts [(3, 5), (3, 7), (8, 1)] emptyTable (bucketIdx 3)) =
      lastVal 3 [(3, 5), (3, 7), (8, 1)] ∧
    (Spin.retrieve 3
        (Spin.runInserts [(3, 5), (3, 7), (8, 1)] emptyTable)).1 ≠ .null ∧
    countKey 8
        (Spin.runInserts ([(3, 5), (3, 7), (8, 1)].take 2) emptyTable
          ⟨3, by decide⟩) ≤ 1 := by
  have h := claim_C3_last_writer_wins [(3, 5), (3, 7), (8, 1)] 3 (by decide)
  exact ⟨h.1, h.2.1, h.2.2.1, h.2.2.2 2 ⟨3, by decide⟩ 8⟩

/-- C4: applying one identical sequence of inserts from the empty table
under any of the three locking strategies yields the same observable
key-to-value mapping: every lookup returns the same copy-or-null outcome
under all three implementations. -/
theorem claim_C4_strategy_equivalence (ops : List (Nat × Nat)) (key : Nat) :
    (RW.retrieve key (RW.runInserts ops emptyTable)).1 =
      (Spin.retrieve key (Spin.runInserts ops emptyTable)).1 ∧
    (TwoLevel.retrieve key (TwoLevel.runInserts ops emptyTable)).1 =
      (Spin.retrieve key (Spin.runInserts ops emptyTable)).1 := by
  constructor
  · rw [rw_retrieve_eq_spin, rw_runInserts_eq_spin]
  · rw [twoLevel_retrieve_eq_spin, twoLevel_runInserts_eq_spin]

/-! ### Race lemmas for the double-checked two-level insert -/

theorem raceInv_update_branch (key v1 v2 vme : Nat) (hv : vme = v1 ∨ vme = v2)
    {ch c : EntryChain} (hu : updateVal key vme ch = some c)
    (hcnt : countKey key ch ≤ 1) :
    countKey key c ≤ 1 ∧ (∀ w, valOf key c = some w → w = v1 ∨ w = v2) ∧
      containsKey key c = true := by
  refine ⟨?_, ?_, ?_⟩
  · rw [countKey_updateVal key vme key hu]
    exact hcnt
  · intro w hw
    rw [valOf_updateVal_self key vme hu] at hw
    rw [Option.some_inj] at hw
    rw [← hw]
    exact hv
  · rw [containsKey_updateVal key vme key hu]
    exact contains_of_updateVal_some key vme hu

theorem raceInv_threadStep (key v1 v2 vme : Nat) (hv : vme = v1 ∨ vme = v2)
    (pc : PC) (ch : EntryChain)
    (hcnt : countKey key ch ≤ 1)
    (hval : ∀ w, valOf key ch = some w → w = v1 ∨ w = v2)
    (hdone : pc = .done → containsKey key ch = true) :
    countKey key (threadStep key vme pc ch).2 ≤ 1 ∧
    (∀ w, valOf key (threadStep key vme pc ch).2 = some w →
      w = v1 ∨ w = v2) ∧
    ((threadStep key vme pc ch).1 = .done →
      containsKey key (threadStep key vme pc ch).2 = true) ∧
    (containsKey key ch = true →
      containsKey key (threadStep key vme pc ch).2 = true) := by
  cases pc with
  | start =>
    cases hu : updateVal key vme ch with
    | some c =>
      simp only [threadStep, hu]
      obtain ⟨h1, h2, h3⟩ := raceInv_update_branch key v1 v2 vme hv hu hcnt
      exact ⟨h1, h2, fun _ => h3, fun _ => h3⟩
    | none =>
      simp only [threadStep, hu]
      exact ⟨hcnt, hval, fun h => absurd h (by decide), fun h => h⟩
  | escalate =>
    cases hu : updateVal key vme ch with
    | some c =>
      simp only [threadStep, hu]
      obtain ⟨h1, h2, h3⟩ := raceInv_update_branch key v1 v2 vme hv hu hcnt
      exact ⟨h1, h2, fun _ => h3, fun _ => h3⟩
    | none =>
      simp only [threadStep, hu]
      have hcf : containsKey key ch = false :=
        (updateVal_eq_none_iff key vme ch).mp hu
      have hc0 : countKey key ch = 0 := (countKey_eq_zero_iff key ch).mpr hcf
      refine ⟨?_, ?_, ?_, ?_⟩
      · simp [countKey, hc0]
      · intro w hw
        simp [valOf] at hw
        subst hw
        exact hv
      · intro _
        simp [containsKey]
      · intro _
        simp [containsKey]
  | done =>
    simp only [threadStep]
    exact ⟨hcnt, hval, fun _ => hdone rfl, fun h => h⟩

theorem raceInv_sysStep (key v1 v2 : Nat) {s : CState}
    (h : RaceInv key v1 v2 s) (b : Bool) :
    RaceInv key v1 v2 (sysStep key v1 v2 s b) := by
  unfold RaceInv at h ⊢
  obtain ⟨hcnt, hval, hd1, hd2⟩ := h
  cases b with
  | false =>
    have hstep := raceInv_threadStep key v1 v2 v1 (Or.inl rfl) s.pc1 s.chain
      hcnt hval hd1
    exact ⟨hstep.1, hstep.2.1, fun hd => hstep.2.2.1 hd,
      fun hd => hstep.2.2.2 (hd2 hd)⟩
  | true =>
    have hstep := raceInv_threadStep key v1 v2 v2 (Or.inr rfl) s.pc2 s.chain
      hcnt hval hd2
    exact ⟨hstep.1, hstep.2.1, fun hd => hstep.2.2.2 (hd1 hd),
      fun hd => hstep.2.2.1 hd⟩

theorem raceInv_runSched (key v1 v2 : Nat) (sched : List Bool) {s : CState}
    (h : RaceInv key v1 v2 s) :
    RaceInv key v1 v2 (runSched key v1 v2 s sched) := by
  induction sched generalizing s with
  | nil => exact h
  | cons b rest ih => exact ih (raceInv_sysStep key v1 v2 h b)

theorem raceInv_init (key v1 v2 : Nat) {ch0 : EntryChain}
    (h0 : containsKey key ch0 = false) :
    RaceInv key v1 v2 ⟨ch0, .start, .start⟩ := by
  unfold RaceInv
  refine ⟨?_, ?_, ?_, ?_⟩
  · show countKey key ch0 ≤ 1
    have := (countKey_eq_zero_iff key ch0).mpr h0
    omega
  · show ∀ w, valOf key ch0 = some w → w = v1 ∨ w = v2
    intro w hw
    have hn := (valOf_eq_none_iff key ch0).mpr h0
    rw [hn] at hw
    exact absurd hw (by simp)
  · intro h
    exact PC.noConfusion h
  · intro h
    exact PC.noConfusion h

/-- C5: in the two-level variant, when two threads race to insert the same
previously-absent key, every interleaving of the lock-protected atomic
steps that finishes both threads leaves exactly one entry for that key in
the contended chain, carrying one of the two inserted values, and at every
intermediate point at most one entry for the key exists — the exclusive
re-scan after escalation closes the duplication window. -/
theorem claim_C5_concurrent_insert_race (ch0 : EntryChain) (key v1 v2 : Nat)
    (sched : List Bool) (h0 : containsKey key ch0 = false)
    (h1 : (runSched key v1 v2 ⟨ch0, .start, .start⟩ sched).pc1 = .done)
    (h2 : (runSched key v1 v2 ⟨ch0, .start, .start⟩ sched).pc2 = .done) :
    countKey key (runSched key v1 v2 ⟨ch0, .start, .start⟩ sched).chain = 1 ∧
    (valOf key (runSched key v1 v2 ⟨ch0, .start, .start⟩ sched).chain =
        some v1 ∨
      valOf key (runSched key v1 v2 ⟨ch0, .start, .start⟩ sched).chain =
        some v2) ∧
    (∀ n, countKey key
        (runSched key v1 v2 ⟨ch0, .start, .start⟩ (sched.take n)).chain ≤
      1) := by
  have hfin := raceInv_runSched key v1 v2 sched (raceInv_init key v1 v2 h0)
  unfold RaceInv at hfin
  obtain ⟨hcnt, hval, hd1, _⟩ := hfin
  have hcontains := hd1 h1
  have hge := one_le_countKey_of_contains key hcontains
  obtain ⟨v, hv⟩ := exists_valOf_of_contains key hcontains
  refine ⟨by omega, ?_, ?_⟩
  · rcases hval v hv with rfl | rfl
    · exact Or.inl hv
    · exact Or.inr hv
  · intro n
    have hpre := raceInv_runSched key v1 v2 (sched.take n)
      (raceInv_init key v1 v2 h0)
    unfold RaceInv at hpre
    exact hpre.1

/-- Witness for C5: thread 1 escalates and links key 0, then thread 2 finds
it on the fast path and overwrites the value: one entry, value 2. -/
theorem claim_C5_concurrent_insert_race_witness :
    countKey 0
        (runSched 0 1 2 ⟨.null, .start, .start⟩ [false, false, true]).chain =
      1 ∧
    (valOf 0
        (runSched 0 1 2 ⟨.null, .start, .start⟩
          [false, false, true]).chain = some 1 ∨
      valOf 0
        (runSched 0 1 2 ⟨.null, .start, .start⟩
          [false, false, true]).chain = some 2) ∧
    countKey 0
        (runSched 0 1 2 ⟨.null, .start, .start⟩
          ([false, false, true].take 2)).chain ≤ 1 := by
  have h := claim_C5_concurrent_insert_race .null 0 1 2 [false, false, true]
    (by decide) (by decide) (by decide)
  exact ⟨h.1, h.2.1, h.2.2 2⟩

/-! ### Lock-trace lemmas -/

theorem updateValEv_fst (key val : Nat) (ch : EntryChain) :
    (updateValEv key val ch).1 = updateVal key val ch := by
  induction ch with
  | null => rfl
  | entry k v next ih =>
    by_cases hk : k = key
    · simp [updateValEv, updateVal, hk]
    · simp [updateValEv, updateVal, hk, ih]

theorem updateValEv_trace_none (key val : Nat) (ch : EntryChain)
    (h : (updateValEv key val ch).1 = none) :
    (updateValEv key val ch).2 = [] := by
  induction ch with
  | null => rfl
  | entry k v next ih =>
    by_cases hk : k = key
    · simp [updateValEv, hk] at h
    · simp only [updateValEv, if_neg hk] at h ⊢
      simp only [Option.map_eq_none'] at h
      exact ih h

theorem updateValEv_trace_some (key val : Nat) (ch : EntryChain)
    (h : (updateValEv key val ch).1 ≠ none) :
    (updateValEv key val ch).2 = [.lockEntry, .unlockEntry] := by
  induction ch with
  | null => exact absurd rfl h
  | entry k v next ih =>
    by_cases hk : k = key
    · simp [updateValEv, hk]
    · simp only [updateValEv, if_neg hk] at h ⊢
      simp only [ne_eq, Option.map_eq_none'] at h
      exact ih h

theorem scanCopyEv_trace (allocOk : Bool) (key : Nat) (ch : EntryChain) :
    (scanCopyEv allocOk key ch).2 = [] ∨
      (scanCopyEv allocOk key ch).2 = [.lockEntry, .unlockEntry] := by
  induction ch with
  | null => exact Or.inl rfl
  | entry k v next ih =>
    by_cases hk : k = key
    · cases allocOk <;> simp [scanCopyEv, hk]
    · simp only [scanCopyEv, if_neg hk]
      exact ih

theorem spin_insertEv_trace (allocOk : Bool) (key val : Nat) (t : Table) :
    (Spin.insertEv allocOk key val t).2 =
      [.wrLock (bucketIdx key), .unlock (bucketIdx key)] := by
  simp only [Spin.insertEv]
  cases h : updateVal key val (t (bucketIdx key)) <;> cases allocOk <;>
    simp [h]

theorem spin_insertEv_locks (allocOk : Bool) (key val : Nat) (t : Table) :
    heldAfter (Spin.insertEv allocOk key val t).2 (0, 0) = (0, 0) ∧
    disciplineFrom 0 0 (Spin.insertEv allocOk key val t).2 = true := by
  rw [spin_insertEv_trace]
  exact ⟨rfl, rfl⟩

theorem spin_retrieveEv_trace (allocOk : Bool) (key : Nat) (t : Table) :
    (Spin.retrieveEv allocOk key t).2 =
      [.wrLock (bucketIdx key), .unlock (bucketIdx key)] := by
  simp only [Spin.retrieveEv]
  cases hc : containsKey key (t (bucketIdx key)) <;> cases allocOk <;>
    simp [hc]

theorem spin_retrieveEv_locks (allocOk : Bool) (key : Nat) (t : Table) :
    heldAfter (Spin.retrieveEv allocOk key t).2 (0, 0) = (0, 0) ∧
    disciplineFrom 0 0 (Spin.retrieveEv allocOk key t).2 = true := by
  rw [spin_retrieveEv_trace]
  exact ⟨rfl, rfl⟩

theorem twoLevel_insertEv_locks (allocOk : Bool) (key val : Nat) (t : Table) :
    heldAfter (TwoLevel.insertEv allocOk key val t).2 (0, 0) = (0, 0) ∧
    disciplineFrom 0 0 (TwoLevel.insertEv allocOk key val t).2 = true := by
  rcases hp : updateValEv key val (t (bucketIdx key)) with ⟨r, evs⟩
  cases r with
  | some c =>
    have hevs : evs = [.lockEntry, .unlockEntry] := by
      have h2 := updateValEv_trace_some key val (t (bucketIdx key))
        (by rw [hp]; simp)
      rw [hp] at h2
      exact h2
    simp only [TwoLevel.insertEv, hp, hevs]
    exact ⟨rfl, rfl⟩
  | none =>
    have hevs : evs = [] := by
      have h2 := updateValEv_trace_none key val (t (bucketIdx key))
        (by rw [hp])
      rw [hp] at h2
      exact h2
    simp only [TwoLevel.insertEv, hp, hevs]
    cases allocOk <;> exact ⟨rfl, rfl⟩

theorem twoLevel_retrieveEv_locks (allocOk : Bool) (key : Nat) (t : Table) :
    heldAfter (TwoLevel.retrieveEv allocOk key t).2 (0, 0) = (0, 0) ∧
    disciplineFrom 0 0 (TwoLevel.retrieveEv allocOk key t).2 = true := by
  rcases scanCopyEv_trace allocOk key (t (bucketIdx key)) with hevs | hevs <;>
    · simp only [TwoLevel.retrieveEv, hevs]
      exact ⟨rfl, rfl⟩

/-- C7: in the two-level variant, every execution of insert and of lookup,
whatever the table state and whether or not allocation succeeds, emits a
lock trace obeying the ordering discipline: a bucket lock is acquired only
with no entry lock held, an entry lock is acquired only while a bucket lock
is held and no other entry lock is held (so entry locks are never nested
and at most one is held at a time), and every release matches an
acquisition. -/
theorem claim_C7_lock_ordering (allocOk : Bool) (key val : Nat) (t : Table) :
    disciplineFrom 0 0 (TwoLevel.insertEv allocOk key val t).2 = true ∧
    disciplineFrom 0 0 (TwoLevel.retrieveEv allocOk key t).2 = true :=
  ⟨(twoLevel_insertEv_locks allocOk key val t).2,
    (twoLevel_retrieveEv_locks allocOk key t).2⟩

/-- C9: when the allocation inside insert or inside the lookup copy path
fails (first component none means the process panics), the lock trace
emitted up to the panic releases every acquired lock — the final held
counts are zero and the trace is well nested — in both the spinlock
variant and the two-level variant, whose lookup also releases the entry
mutex before the bucket lock. -/
theorem claim_C9_alloc_failure_unlocks (key val : Nat) (t : Table) :
    ((Spin.insertEv false key val t).1 = none →
      heldAfter (Spin.insertEv false key val t).2 (0, 0) = (0, 0) ∧
      disciplineFrom 0 0 (Spin.insertEv false key val t).2 = true) ∧
    ((Spin.retrieveEv false key t).1 = none →
      heldAfter (Spin.retrieveEv false key t).2 (0, 0) = (0, 0) ∧
      disciplineFrom 0 0 (Spin.retrieveEv false key t).2 = true) ∧
    ((TwoLevel.insertEv false key val t).1 = none →
      heldAfter (TwoLevel.insertEv false key val t).2 (0, 0) = (0, 0) ∧
      disciplineFrom 0 0 (TwoLevel.insertEv false key val t).2 = true) ∧
    ((TwoLevel.retrieveEv false key t).1 = none →
      heldAfter (TwoLevel.retrieveEv false key t).2 (0, 0) = (0, 0) ∧
      disciplineFrom 0 0 (TwoLevel.retrieveEv false key t).2 = true) :=
  ⟨fun _ => spin_insertEv_locks false key val t,
    fun _ => spin_retrieveEv_locks false key t,
    fun _ => twoLevel_insertEv_locks false key val t,
    fun _ => twoLevel_retrieveEv_locks false key t⟩

/-- Witness for C9: inserting absent key 2 into the empty table and looking
up present key 3 both hit the failing allocation and panic with all locks
released, in both variants. -/
theorem claim_C9_alloc_failure_unlocks_witness :
    heldAfter (Spin.insertEv false 2 9 emptyTable).2 (0, 0) = (0, 0) ∧
    heldAfter
        (Spin.retrieveEv false 3 (Spin.insert 3 5 emptyTable)).2 (0, 0) =
      (0, 0) ∧
    heldAfter (TwoLevel.insertEv false 2 9 emptyTable).2 (0, 0) = (0, 0) ∧
    heldAfter
        (TwoLevel.retrieveEv false 3 (Spin.insert 3 5 emptyTable)).2 (0, 0) =
      (0, 0) := by
  have h1 := claim_C9_alloc_failure_unlocks 2 9 emptyTable
  have h2 := claim_C9_alloc_failure_unlocks 3 0 (Spin.insert 3 5 emptyTable)
  exact ⟨(h1.1 rfl).1, (h2.2.1 rfl).1, (h1.2.2.1 rfl).1, (h2.2.2.2 rfl).1⟩

/-! ### Argument-validation lemmas -/

theorem digitsVal_eq_zero (cs : List Char)
    (h : ∀ c ∈ cs, c.isDigit = false) : digitsVal cs 0 = 0 := by
  cases cs with
  | nil => rfl
  | cons c rest =>
    have hc := h c (List.mem_cons_self c rest)
    simp [digitsVal, hc]

theorem atoi_of_no_digits (s : String)
    (h : ∀ c ∈ s.toList, c.isDigit = false) : atoi s = 0 := by
  have hsub : ∀ c ∈ s.toList.dropWhile isSpaceChar, c.isDigit = false := by
    intro c hc
    exact h c (List.dropWhile_subset isSpaceChar hc)
  unfold atoi
  cases hcs : s.toList.dropWhile isSpaceChar with
  | nil => rfl
  | cons c rest =>
    rw [hcs] at hsub
    have hrest : ∀ c2 ∈ rest, c2.isDigit = false :=
      fun c2 h2 => hsub c2 (List.mem_cons_of_mem c h2)
    have hcd := hsub c (List.mem_cons_self c rest)
    by_cases h1 : c = '-'
    · simp [h1, digitsVal_eq_zero rest hrest]
    · by_cases h2 : c = '+'
      · simp [h1, h2, digitsVal_eq_zero rest hrest]
      · simp [h1, h2, digitsVal_eq_zero (c :: rest) hsub]

/-- C8: the entry point check accepts exactly one argument after the
program name, which must parse to a positive thread count.  Any other
invocation — wrong argument count, non-positive count, or a non-numeric
string (whose atoi value is 0) — makes mainGuard return the fatal usage
error with exit status 1, which is non-zero, before any table state is
created; mainGuard succeeds only with exactly two argv entries and a
positive parsed count. -/
theorem claim_C8_argument_validation (argv : List String) :
    (argv.length ≠ 2 ∨ atoi (argv.getD 1 "") ≤ 0 →
      ∃ msg, mainGuard argv = .error (1, msg) ∧ (1 : Int) ≠ 0) ∧
    (∀ n, mainGuard argv = .ok n →
      argv.length = 2 ∧ 0 < n ∧ n = atoi (argv.getD 1 "")) ∧
    (∀ s : String, (∀ c ∈ s.toList, c.isDigit = false) → atoi s = 0) := by
  refine ⟨?_, ?_, fun s h => atoi_of_no_digits s h⟩
  · intro h
    simp only [mainGuard]
    split
    next hlen => exact ⟨"usage: ./parallel_spin <num_threads>", rfl, by decide⟩
    next hlen =>
      have hl2 : argv.length = 2 := not_not.mp hlen
      have hv : atoi (argv.getD 1 "") ≤ 0 := by
        rcases h with h1 | h2
        · exact absurd hl2 h1
        · exact h2
      rw [if_pos hv]
      exact ⟨"must enter a valid number of threads to run", rfl, by decide⟩
  · intro n hn
    simp only [mainGuard] at hn
    split at hn
    next hlen => simp at hn
    next hlen =>
      have hl2 : argv.length = 2 := not_not.mp hlen
      split at hn
      next hle => simp at hn
      next hle =>
        have heq : atoi (argv.getD 1 "") = n := Except.ok.inj hn
        exact ⟨hl2, by omega, heq.symm⟩

/-- Witness for C8: a missing argument is a fatal usage error, the
invocation with thread count 4 passes the guard, and a non-numeric string
parses to 0. -/
theorem claim_C8_argument_validation_witness :
    (∃ msg, mainGuard ["parallel_spin"] = .error (1, msg) ∧ (1 : Int) ≠ 0) ∧
    (["parallel_spin", "4"].length = 2 ∧ (0 : Int) < 4 ∧
      (4 : Int) = atoi (["parallel_spin", "4"].getD 1 "")) ∧
    atoi "abc" = 0 := by
  refine ⟨?_, ?_, ?_⟩
  · exact (claim_C8_argument_validation ["parallel_spin"]).1
      (Or.inl (by decide))
  · exact (claim_C8_argument_validation ["parallel_spin", "4"]).2.1 4 rfl
  · exact (claim_C8_argument_validation [""]).2.2 "abc" (by decide)

end HashTable
